import Mathlib

/-!
# repodiagram: scanner and generation pipeline

A shallow embedding of `internal/generator/generator.go` and
`internal/scanner/scanner.go`, and the properties proved about them.

Modelling conventions.

* A Go `string` is a `Str`, a list of Unicode code points.  The texts handled here
  (model replies decoded from JSON, path names) are taken to be valid UTF-8, on which
  the byte order of Go's string comparison is the code-point order.
* `strings.TrimSpace`, `strings.HasPrefix`, `strings.TrimPrefix`, `strings.HasSuffix`,
  `strings.TrimSuffix`, `strings.Join`, `sort.Strings`, `filepath.Ext` and
  `filepath.WalkDir` are Go library functions; they are modelled from their documented
  behaviour.
* The chat-completion client, the ignore matcher and the `prompts` package are outside
  the embedded files; they are parameters of the model.
-/

/-- A Go string, as its sequence of code points. -/
abbrev Str := List Char

/-! ## Go `strings` helpers -/

/-- Go `unicode.IsSpace`: the Latin-1 spaces and the other `White_Space` code points. -/
def isSpace (c : Char) : Bool :=
  let r := c.toNat
  if r ≤ 0xFF then
    r = 0x09 || r = 0x0A || r = 0x0B || r = 0x0C || r = 0x0D || r = 0x20 || r = 0x85
      || r = 0xA0
  else
    r = 0x1680 || (0x2000 ≤ r && r ≤ 0x200A) || r = 0x2028 || r = 0x2029 || r = 0x202F
      || r = 0x205F || r = 0x3000

/-- Go `strings.TrimSpace`: leading and trailing white space removed. -/
def TrimSpace (s : Str) : Str :=
  ((s.dropWhile isSpace).reverse.dropWhile isSpace).reverse

/-- Go `strings.HasPrefix`. -/
def HasPrefix (s pre : Str) : Bool := pre.isPrefixOf s

/-- Go `strings.TrimPrefix`. -/
def TrimPrefix (s pre : Str) : Str :=
  if HasPrefix s pre then s.drop pre.length else s

/-- Go `strings.HasSuffix`. -/
def HasSuffix (s suf : Str) : Bool := suf.isSuffixOf s

/-- Go `strings.TrimSuffix`. -/
def TrimSuffix (s suf : Str) : Str :=
  if HasSuffix s suf then s.take (s.length - suf.length) else s

/-- Go `strings.Join`. -/
def Join : List Str → Str → Str
  | [], _ => []
  | [a], _ => a
  | a :: b :: rest, sep => a ++ sep ++ Join (b :: rest) sep

/-! ## `extractTag` -/

/-- The lazy group `([\s\S]*?)` followed by the literal `close`: the group takes
0, 1, 2, ... characters (any character, newlines included) and stops at the first
length after which `close` matches.  The result is the text of the group. -/
def lazyBody (close : Str) : Str → Option Str
  | [] => if close.isPrefixOf [] then some [] else none
  | c :: rest =>
    if close.isPrefixOf (c :: rest) then some []
    else (lazyBody close rest).map (c :: ·)

/-- A match of `op ([\s\S]*?) close` that starts at the head of `s`. -/
def matchAt (op close s : Str) : Option Str :=
  if op.isPrefixOf s then lazyBody close (s.drop op.length) else none

/-- Go `Regexp.FindStringSubmatch` for a pattern `op ([\s\S]*?) close` whose `op` and
`close` are literals: start positions are tried from left to right and the first one
that admits a match wins (leftmost-first).  The result is submatch 1. -/
def findStringSubmatch (op close : Str) : Str → Option Str
  | [] => matchAt op close []
  | c :: rest =>
    match matchAt op close (c :: rest) with
    | some m => some m
    | none => findStringSubmatch op close rest

/-- The opening literal `<tag>` of the pattern. -/
def openTag (tag : Str) : Str := "<".toList ++ tag ++ ">".toList

/-- The closing literal `</tag>` of the pattern. -/
def closeTag (tag : Str) : Str := "</".toList ++ tag ++ ">".toList

/-- The function `extractTag` of generator.go.  The pattern is
`fmt.Sprintf("<%s>([\s\S]*?)</%s>", tag, tag)`; the tag is read literally, which is
what the regular expression does for a tag without metacharacters. -/
def extractTag (content tag : Str) : Str :=
  match findStringSubmatch (openTag tag) (closeTag tag) content with
  | some m => TrimSpace m
  | none => TrimSpace content

/-- The tag of phase 1. -/
def tagExplanation : Str := "explanation".toList

/-- The tag of phase 2. -/
def tagComponentMapping : Str := "component_mapping".toList

/-! ## `cleanMermaidOutput` -/

/-- The fence marker. -/
def fence : Str := "```".toList

/-- The fence marker with the language tag `mermaid`. -/
def fenceMermaid : Str := "```mermaid".toList

/-- The function `cleanMermaidOutput` of generator.go. -/
def cleanMermaidOutput (content : Str) : Str :=
  let content := TrimSpace content
  let content :=
    if HasPrefix content fenceMermaid then TrimPrefix content fenceMermaid else content
  let content := if HasPrefix content fence then TrimPrefix content fence else content
  let content := if HasSuffix content fence then TrimSuffix content fence else content
  TrimSpace content

/-- The four steps as the specification words them: trim; strip one leading fence
marker together with whatever language word (letters and digits) directly follows it;
strip one trailing fence marker; trim. -/
def cleanOutputAnyLanguage (text : Str) : Str :=
  let t := TrimSpace text
  let t := if HasPrefix t fence then (t.drop fence.length).dropWhile Char.isAlphanum else t
  let t := if HasSuffix t fence then TrimSuffix t fence else t
  TrimSpace t

/-- The text on which the two leading strips of the code both fire. -/
def fenceMermaidFence : Str := "```mermaid```".toList

/-- The language tag `mermaid`. -/
def mermaidWord : Str := "mermaid".toList

/-- The four steps with the language tag restricted to `mermaid`: trim; strip one
leading fence marker, and the seven letters `mermaid` when they directly follow the
marker (a literal prefix: of a longer word such as `mermaidjs` only these letters go,
any other word stays); strip one trailing fence marker; trim. -/
def cleanOutputMermaidTag (text : Str) : Str :=
  let t := TrimSpace text
  let t :=
    if HasPrefix t fence then TrimPrefix (t.drop fence.length) mermaidWord else t
  let t := if HasSuffix t fence then TrimSuffix t fence else t
  TrimSpace t

/-- The text `pre ++ op ++ mid ++ close ++ post` is a decomposition of `content` at the
first opening `op` that is followed by a `close`, with `close` the nearest one after
that opening. -/
def IsFirstSpan (op close content pre mid post : Str) : Prop :=
  content = pre ++ op ++ mid ++ close ++ post ∧
  (∀ pre' mid' post', content = pre' ++ op ++ mid' ++ close ++ post' →
      pre.length ≤ pre'.length) ∧
  (∀ mid' post', content = pre ++ op ++ mid' ++ close ++ post' →
      mid.length ≤ mid'.length)

/-- The text contains an opening `op` followed somewhere later by `close`. -/
def HasSpan (op close content : Str) : Prop :=
  ∃ pre mid post, content = pre ++ op ++ mid ++ close ++ post

/-! ## The scanner (`internal/scanner/scanner.go`) -/

/-- The keys of the map `defaultExcludeDirs`; a lookup in the map is `contains`. -/
def defaultExcludeDirs : List Str :=
  ["node_modules", "vendor", ".git", "__pycache__", ".venv", "venv", ".env", "env", ".tox",
   ".pytest_cache", ".mypy_cache", ".ruff_cache", "dist", "build", ".next", ".nuxt",
   ".output", ".cache", ".tmp", ".temp", "coverage", ".nyc_output", ".parcel-cache",
   ".turbo", ".vercel", ".netlify", "target", ".gradle", ".idea", ".vscode", ".vs",
   ".DS_Store", "Thumbs.db", ".svn", ".hg"].map String.toList

/-- The keys of the map `defaultExcludeExtensions`. -/
def defaultExcludeExtensions : List Str :=
  [".pyc", ".pyo", ".so", ".dll", ".dylib", ".class", ".jar", ".war", ".ear", ".o", ".a",
   ".lib", ".exe", ".bin", ".jpg", ".jpeg", ".png", ".gif", ".bmp", ".ico", ".svg",
   ".webp", ".mp3", ".mp4", ".wav", ".avi", ".mov", ".webm", ".flv", ".woff", ".woff2",
   ".ttf", ".eot", ".otf", ".pdf", ".zip", ".tar", ".gz", ".rar", ".7z", ".lock",
   ".min.js", ".min.css", ".map"].map String.toList

/-- The keys of the map `defaultExcludeFiles`. -/
def defaultExcludeFiles : List Str :=
  ["package-lock.json", "yarn.lock", "pnpm-lock.yaml", "poetry.lock", "Pipfile.lock",
   "composer.lock", "Gemfile.lock", "Cargo.lock", "go.sum", ".gitignore",
   ".gitattributes", ".editorconfig", ".prettierrc", ".eslintrc", ".eslintignore",
   "tsconfig.tsbuildinfo"].map String.toList

/-- The loop of Go `filepath.Ext`: the path is read from its end; a separator ends the
search with no extension, a dot ends it with the suffix read so far. -/
def extFrom : Str → Str → Str
  | [], _ => []
  | c :: rest, acc =>
    if c = '/' then [] else if c = '.' then '.' :: acc else extFrom rest (c :: acc)

/-- Go `filepath.Ext`: the suffix beginning at the final dot of the final element of
the path, empty when there is no dot. -/
def filepathExt (path : Str) : Str := extFrom path.reverse []

/-- The compiled ignore file, seen through its one predicate `MatchesPath`. -/
abbrev GitIgnore := Str → Bool

/-- The test `gi != nil && gi.MatchesPath(p)`. -/
def matchesPath (gi : Option GitIgnore) (p : Str) : Bool :=
  match gi with
  | none => false
  | some m => m p

/-- A snapshot of the file tree below the root: files (any entry that is not a
directory), and directories with their entries in the order in which the walk reads
them.  A directory that cannot be read is a directory without entries: the callback
records it on its first call and returns `nil` on the second call that reports the
error. -/
inductive Entry
  | file (name : Str)
  | dir (name : Str) (children : List Entry)

/-- What the callback of `filepath.WalkDir` returns: `nil` or `filepath.SkipDir`. -/
inductive WalkAction
  | next
  | skipDir
  deriving DecidableEq

/-- The path separator. -/
def sep : Str := "/".toList

/-- The suffix of minified scripts. -/
def minJs : Str := ".min.js".toList

/-- The suffix of minified style sheets. -/
def minCss : Str := ".min.css".toList

/-- Go `filepath.Rel(absRoot, path)` for an entry below the root: its segments joined
by the separator. -/
def relPathOf (segs : List Str) (name : Str) : Str := Join (segs ++ [name]) sep

/-- The callback passed to `filepath.WalkDir` in `ScanDirectory`, for an entry other
than the root, with the slice `paths` of the enclosing function as explicit state. -/
def walkFn (gi : Option GitIgnore) (relPath name : Str) (isDir : Bool)
    (paths : List Str) : WalkAction × List Str :=
  if isDir then
    if defaultExcludeDirs.contains name then (.skipDir, paths)
    else if matchesPath gi (relPath ++ sep) then (.skipDir, paths)
    else (.next, paths ++ [relPath ++ sep])
  else if defaultExcludeFiles.contains name then (.next, paths)
  else if defaultExcludeExtensions.contains (filepathExt name) then (.next, paths)
  else if HasSuffix name minJs || HasSuffix name minCss then (.next, paths)
  else if matchesPath gi relPath then (.next, paths)
  else (.next, paths ++ [relPath])

mutual
/-- Go `filepath.WalkDir` on one entry of the directory with segments `segs`: the
callback runs on the entry, and on the entries of a directory unless the callback
answered `SkipDir`. -/
def walkEntry (gi : Option GitIgnore) (segs : List Str) : Entry → List Str → List Str
  | .file name, paths => (walkFn gi (relPathOf segs name) name false paths).2
  | .dir name children, paths =>
    match walkFn gi (relPathOf segs name) name true paths with
    | (.skipDir, paths) => paths
    | (.next, paths) => walkEntries gi (segs ++ [name]) children paths
/-- Go `filepath.WalkDir` on the entries of a directory, in their order. -/
def walkEntries (gi : Option GitIgnore) (segs : List Str) :
    List Entry → List Str → List Str
  | [], paths => paths
  | e :: es, paths => walkEntries gi segs es (walkEntry gi segs e paths)
end

/-- Go string comparison `a <= b`: the first differing position decides, a proper
prefix is smaller. -/
def strLE : Str → Str → Bool
  | [], _ => true
  | _ :: _, [] => false
  | a :: as, b :: bs => if a < b then true else if b < a then false else strLE as bs

/-- Go `sort.Strings`: the strings in ascending order. -/
def sortStrings (paths : List Str) : List Str :=
  List.insertionSort (fun a b => strLE a b = true) paths

/-- The line separator of the listing. -/
def newline : Str := "\n".toList

/-- The function `ScanDirectory` of scanner.go on the entries of the root directory.
The callback returns at once on the root itself (`relPath == "."`), so the walk starts
with the root's entries and an empty slice. -/
def ScanDirectory (root : List Entry) (gi : Option GitIgnore) : Str :=
  Join (sortStrings (walkEntries gi [] root [])) newline

/-- The entries of `es` (a directory with segments `segs`) and below on which the walk
runs the callback: every entry of `es`, and the entries visited inside each directory of
`es` on which the callback does not answer `SkipDir`.  `Visited gi segs es segs1 e`
says that `e` is visited and lies in the directory with segments `segs1`. -/
inductive Visited (gi : Option GitIgnore) :
    List Str → List Entry → List Str → Entry → Prop
  | here (segs : List Str) (es : List Entry) (e : Entry) :
      e ∈ es → Visited gi segs es segs e
  | inside (segs : List Str) (es : List Entry) (name : Str) (children : List Entry)
      (segs1 : List Str) (e : Entry) :
      Entry.dir name children ∈ es →
      (walkFn gi (relPathOf segs name) name true []).1 = WalkAction.next →
      Visited gi (segs ++ [name]) children segs1 e →
      Visited gi segs es segs1 e

/-- A name that a file system entry can have: not empty and without separator. -/
def validName (name : Str) : Bool := !name.isEmpty && !name.contains '/'

mutual
/-- The names of an entry and of all entries below it. -/
def Entry.names : Entry → List Str
  | .file name => [name]
  | .dir name children => name :: namesOfEntries children
/-- The names of the listed entries and of all entries below them. -/
def namesOfEntries : List Entry → List Str
  | [] => []
  | e :: es => e.names ++ namesOfEntries es
end

/-- Every name in the tree is a valid name. -/
def WellFormed (root : List Entry) : Prop := ∀ n ∈ namesOfEntries root, validName n = true

/-- The text `ext` is the extension of `name` as the specification words it: the suffix
from the last dot of the name, empty for a name without dot. -/
def IsExtension (name ext : Str) : Prop :=
  ('.' ∉ name ∧ ext = []) ∨
  ∃ stem rest, name = stem ++ '.' :: rest ∧ '.' ∉ rest ∧ ext = '.' :: rest

/-- The conditions of the specification under which a file is recorded: the name is not
an excluded file name, its extension is not an excluded extension, the name ends neither
with `.min.js` nor with `.min.css`, and the ignore matcher, if there is one, does not
match the relative path. -/
def FileSurvives (gi : Option GitIgnore) (relPath name : Str) : Prop :=
  name ∉ defaultExcludeFiles ∧
  (∀ ext, IsExtension name ext → ext ∉ defaultExcludeExtensions) ∧
  ¬ minJs <:+ name ∧ ¬ minCss <:+ name ∧
  (∀ m : GitIgnore, gi = some m → m relPath = false)

/-- A matcher that matches the one path `docs/draft.md`. -/
def ignoreDraft : GitIgnore := fun p => p == "docs/draft.md".toList

/-- A tree with files that each rule and the matcher omit. -/
def mixedTree : List Entry :=
  [.file "photo.png".toList,
   .file "notes.md".toList,
   .file "archive.tar.gz".toList,
   .dir "docs".toList [.file "draft.md".toList, .file "site.min.css".toList],
   .dir "src".toList
     [.file "app.js".toList, .file "app.min.js".toList, .file "yarn.lock".toList]]

/-- The tests of the callback on a file, all negative. -/
def passesFileRules (gi : Option GitIgnore) (relPath name : Str) : Prop :=
  defaultExcludeFiles.contains name = false ∧
  defaultExcludeExtensions.contains (filepathExt name) = false ∧
  HasSuffix name minJs = false ∧ HasSuffix name minCss = false ∧
  matchesPath gi relPath = false

/-- The same tree read in another order: in any directory, at any depth, the entries may
come in another order. -/
inductive Reorder : List Entry → List Entry → Prop
  | refl (es : List Entry) : Reorder es es
  | swap (a b : Entry) (es : List Entry) : Reorder (a :: b :: es) (b :: a :: es)
  | cons (e : Entry) (es es1 : List Entry) : Reorder es es1 → Reorder (e :: es) (e :: es1)
  | inDir (name : Str) (cs cs1 es : List Entry) :
      Reorder cs cs1 → Reorder (Entry.dir name cs :: es) (Entry.dir name cs1 :: es)
  | trans (a b c : List Entry) : Reorder a b → Reorder b c → Reorder a c

/-- The tree of the end-to-end scenario: `src/index.js`, `node_modules/pkg/index.js`,
`README.md`. -/
def scenarioTree : List Entry :=
  [.dir "src".toList [.file "index.js".toList],
   .dir "node_modules".toList [.dir "pkg".toList [.file "index.js".toList]],
   .file "README.md".toList]

/-! ## The generation pipeline (`internal/generator/generator.go`) -/

/-- The error values of the pipeline. -/
inductive GoError
  | api (msg : Str)
  | invalidInstructions
  | phaseFailed (n : Nat) (err : GoError)
  deriving DecidableEq

/-- The way a Go call ends: a value with a nil error, an error with no value, or a
run-time panic (here: index out of range). -/
inductive Outcome (α : Type)
  | ok (v : α)
  | error (err : GoError)
  | panic
  deriving DecidableEq

/-- The struct `Result`. -/
structure Result where
  Diagram : Str
  Explanation : Str
  Mapping : Str
  deriving DecidableEq

/-- A `ChatCompletionRequest`: the model, the content of the system message, the content
of the user message, the stream flag. -/
structure Request where
  Model : Str
  System : Str
  User : Str
  Stream : Bool
  deriving DecidableEq

/-- What `stream.Recv()` returns before `io.EOF`: a response, given by the delta contents
of its choices, or an error. -/
inductive StreamEvent
  | chunk (choices : List Str)
  | fail (err : GoError)
  deriving DecidableEq

/-- The chat-completion client.  A reply may depend on the requests issued before (the
first argument) and on the request.  A completion response is given by the message
contents of its choices; a stream by the finite sequence of what `Recv` returns before
`io.EOF`. -/
structure Client where
  CreateChatCompletion : List Request → Request → Except GoError (List Str)
  CreateChatCompletionStream : List Request → Request → Except GoError (List StreamEvent)

/-- The package `prompts`, as far as the generator uses it. -/
structure Prompts where
  SystemFirstPrompt : Str
  SystemSecondPrompt : Str
  GetThirdSystemPrompt : Bool → Str
  FormatFirstPrompt : Str → Str → Str
  FormatSecondPrompt : Str → Str → Str
  FormatThirdPrompt : Str → Str → Str → Str

/-- The struct `Generator`.  The field `verbose` only switches progress messages, which
are not part of the model. -/
structure Generator where
  client : Client
  model : Str

/-- The marker of phase 3 for instructions that cannot be followed. -/
def badInstructions : Str := "BAD_INSTRUCTIONS".toList

/-- The request of phase 1. -/
def firstRequest (P : Prompts) (g : Generator) (fileTree readme : Str) (stream : Bool) :
    Request :=
  ⟨g.model, P.SystemFirstPrompt, P.FormatFirstPrompt fileTree readme, stream⟩

/-- The request of phase 2. -/
def secondRequest (P : Prompts) (g : Generator) (explanation fileTree : Str)
    (stream : Bool) : Request :=
  ⟨g.model, P.SystemSecondPrompt, P.FormatSecondPrompt explanation fileTree, stream⟩

/-- The request of phase 3. -/
def thirdRequest (P : Prompts) (g : Generator) (explanation mapping instructions : Str)
    (stream : Bool) : Request :=
  ⟨g.model, P.GetThirdSystemPrompt (!instructions.isEmpty),
    P.FormatThirdPrompt explanation mapping instructions, stream⟩

/-- The method `generateExplanation`.  The state `log` is the list of requests issued so
far; `resp.Choices[0]` panics on an empty list of choices. -/
def generateExplanation (P : Prompts) (g : Generator) (log : List Request)
    (fileTree readme : Str) : Outcome Str × List Request :=
  let req := firstRequest P g fileTree readme false
  match g.client.CreateChatCompletion log req with
  | .error err => (.error err, log ++ [req])
  | .ok [] => (.panic, log ++ [req])
  | .ok (content :: _) => (.ok (extractTag content tagExplanation), log ++ [req])

/-- The method `generateMapping`. -/
def generateMapping (P : Prompts) (g : Generator) (log : List Request)
    (explanation fileTree : Str) : Outcome Str × List Request :=
  let req := secondRequest P g explanation fileTree false
  match g.client.CreateChatCompletion log req with
  | .error err => (.error err, log ++ [req])
  | .ok [] => (.panic, log ++ [req])
  | .ok (content :: _) => (.ok (extractTag content tagComponentMapping), log ++ [req])

/-- The method `generateDiagram`. -/
def generateDiagram (P : Prompts) (g : Generator) (log : List Request)
    (explanation mapping instructions : Str) : Outcome Str × List Request :=
  let req := thirdRequest P g explanation mapping instructions false
  match g.client.CreateChatCompletion log req with
  | .error err => (.error err, log ++ [req])
  | .ok [] => (.panic, log ++ [req])
  | .ok (content :: _) =>
    let content := cleanMermaidOutput content
    if content = badInstructions then (.error .invalidInstructions, log ++ [req])
    else (.ok content, log ++ [req])

/-- The method `GenerateDiagram`. -/
def GenerateDiagram (P : Prompts) (g : Generator) (log : List Request)
    (fileTree readme instructions : Str) : Outcome Result × List Request :=
  match generateExplanation P g log fileTree readme with
  | (.error err, log) => (.error (.phaseFailed 1 err), log)
  | (.panic, log) => (.panic, log)
  | (.ok explanation, log) =>
    match generateMapping P g log explanation fileTree with
    | (.error err, log) => (.error (.phaseFailed 2 err), log)
    | (.panic, log) => (.panic, log)
    | (.ok mapping, log) =>
      match generateDiagram P g log explanation mapping instructions with
      | (.error err, log) => (.error (.phaseFailed 3 err), log)
      | (.panic, log) => (.panic, log)
      | (.ok diagram, log) => (.ok ⟨diagram, explanation, mapping⟩, log)

/-- The receive loop of `streamPhase`: the end of the sequence is `io.EOF`; an error ends
the loop with that error; `response.Choices[0]` panics on an empty list of choices. -/
def recvLoop : List StreamEvent → Str → Outcome Str
  | [], result => .ok result
  | .fail err :: _, _ => .error err
  | .chunk [] :: _, _ => .panic
  | .chunk (c :: _) :: rest, result => recvLoop rest (result ++ c)

/-- The method `streamPhase`, given the request it builds from `systemPrompt` and
`userMsg`. -/
def streamPhase (g : Generator) (log : List Request) (req : Request) :
    Outcome Str × List Request :=
  match g.client.CreateChatCompletionStream log req with
  | .error err => (.error err, log ++ [req])
  | .ok stream => (recvLoop stream [], log ++ [req])

/-- The method `GenerateDiagramStreaming`. -/
def GenerateDiagramStreaming (P : Prompts) (g : Generator) (log : List Request)
    (fileTree readme instructions : Str) : Outcome Result × List Request :=
  match streamPhase g log (firstRequest P g fileTree readme true) with
  | (.error err, log) => (.error err, log)
  | (.panic, log) => (.panic, log)
  | (.ok explanation, log) =>
    let explanation := extractTag explanation tagExplanation
    match streamPhase g log (secondRequest P g explanation fileTree true) with
    | (.error err, log) => (.error err, log)
    | (.panic, log) => (.panic, log)
    | (.ok mapping, log) =>
      let mapping := extractTag mapping tagComponentMapping
      match streamPhase g log (thirdRequest P g explanation mapping instructions true) with
      | (.error err, log) => (.error err, log)
      | (.panic, log) => (.panic, log)
      | (.ok diagram, log) => (.ok ⟨cleanMermaidOutput diagram, explanation, mapping⟩, log)

/-! ### Sample collaborators -/

/-- A package of prompts whose formatters put their arguments on lines of their own. -/
def samplePrompts : Prompts where
  SystemFirstPrompt := "explain".toList
  SystemSecondPrompt := "map".toList
  GetThirdSystemPrompt := fun b => if b then "draw as told".toList else "draw".toList
  FormatFirstPrompt := fun fileTree readme => fileTree ++ newline ++ readme
  FormatSecondPrompt := fun explanation fileTree => explanation ++ newline ++ fileTree
  FormatThirdPrompt := fun explanation mapping instructions =>
    explanation ++ newline ++ mapping ++ newline ++ instructions

/-- The text a sample service produces for its n-th request. -/
def sampleText (last : Str) : Nat → Str
  | 0 => " <explanation> a CLI </explanation> ".toList
  | 1 => "<component_mapping>cmd: src/cmd</component_mapping>".toList
  | _ => last

/-- A service that answers its n-th request with `sampleText last n`, in one piece to a
blocking call and in two pieces to a streaming call. -/
def sampleClient (last : Str) : Client where
  CreateChatCompletion := fun log _ => .ok [sampleText last log.length]
  CreateChatCompletionStream := fun log _ =>
    .ok [.chunk [(sampleText last log.length).take 4],
         .chunk [(sampleText last log.length).drop 4]]

/-- A service whose every call fails. -/
def refusingClient : Client where
  CreateChatCompletion := fun _ _ => .error (.api "connection refused".toList)
  CreateChatCompletionStream := fun _ _ => .error (.api "connection refused".toList)

/-- A service that answers without transport error and with an empty list of choices. -/
def emptyChoicesClient : Client where
  CreateChatCompletion := fun _ _ => .ok []
  CreateChatCompletionStream := fun _ _ => .ok [.chunk []]

/-- The text a stream delivers when every response has a first choice: the delta
contents in arrival order. -/
def streamedText : List StreamEvent → Str
  | [] => []
  | .chunk (c :: _) :: rest => c ++ streamedText rest
  | _ :: rest => streamedText rest

/-- The last segment of a path: the text after its last separator. -/
def baseName (p : Str) : Str := (p.reverse.takeWhile (fun c => c != '/')).reverse

/-- A tree with files that bear names of the table `defaultExcludeDirs`. -/
def metadataTree : List Entry :=
  [.file ".DS_Store".toList,
   .file "build".toList,
   .dir "src".toList [.file "Thumbs.db".toList, .file "main.go".toList]]

/-- The extension of scripts. -/
def dotJs : Str := ".js".toList

/-- A generator on the sample service that answers its third request with `last`. -/
def sampleGenerator (last : Str) : Generator := ⟨sampleClient last, "gpt-4o-mini".toList⟩

/-- A generator on the service whose every call fails. -/
def refusedGenerator : Generator := ⟨refusingClient, "gpt-4o-mini".toList⟩

/-- A generator on the service that answers with an empty list of choices. -/
def emptyChoicesGenerator : Generator := ⟨emptyChoicesClient, "gpt-4o-mini".toList⟩

/-- The listing of the scenario tree. -/
def scenarioListing : Str := "README.md\nsrc/\nsrc/index.js".toList

/-- The readme of the scenario. -/
def scenarioReadme : Str := "# demo".toList

/-- The segments of a path: the texts between its separators. -/
def splitSlash : Str → List Str
  | [] => [[]]
  | c :: rest =>
    if c = '/' then [] :: splitSlash rest
    else
      match splitSlash rest with
      | [] => [[c]]
      | s :: ss => (c :: s) :: ss

/-- The directory segments of a path: the segments that a separator follows. -/
def dirSegments (p : Str) : List Str := (splitSlash p).dropLast

/-! ## Lemmas on the pattern matcher -/

theorem lazyBody_some (close : Str) :
    ∀ (s m : Str), lazyBody close s = some m →
      (∃ post, s = m ++ close ++ post) ∧
      (∀ m' post', s = m' ++ close ++ post' → m.length ≤ m'.length) := by
  intro s
  induction s with
  | nil =>
    intro m h
    simp only [lazyBody] at h
    split at h
    · rename_i hp
      cases h
      have hc : close = [] := by
        cases close with
        | nil => rfl
        | cons a l => simp [List.isPrefixOf] at hp
      subst hc
      exact ⟨⟨[], rfl⟩, fun _ _ _ => Nat.zero_le _⟩
    · cases h
  | cons c rest ih =>
    intro m h
    simp only [lazyBody] at h
    split at h
    · rename_i hp
      cases h
      rw [List.isPrefixOf_iff_prefix] at hp
      obtain ⟨post, hpost⟩ := hp
      exact ⟨⟨post, by simpa using hpost.symm⟩, fun _ _ _ => Nat.zero_le _⟩
    · rename_i hp
      cases hb : lazyBody close rest with
      | none => rw [hb] at h; cases h
      | some m0 =>
        rw [hb] at h
        simp only [Option.map_some', Option.some.injEq] at h
        subst h
        obtain ⟨⟨post, hpost⟩, hmin⟩ := ih m0 hb
        refine ⟨⟨post, by simp [hpost]⟩, ?_⟩
        intro m' post' hdec
        cases m' with
        | nil =>
          exfalso
          apply hp
          rw [List.isPrefixOf_iff_prefix]
          exact ⟨post', by simpa using hdec.symm⟩
        | cons a m'' =>
          simp only [List.cons_append, List.cons.injEq] at hdec
          have := hmin m'' post' hdec.2
          simp only [List.length_cons]
          omega

theorem lazyBody_none (close : Str) :
    ∀ (s : Str), lazyBody close s = none → ∀ m post, s ≠ m ++ close ++ post := by
  intro s
  induction s with
  | nil =>
    intro h m post hdec
    simp only [lazyBody] at h
    split at h
    · cases h
    · rename_i hp
      apply hp
      have h1 : m ++ close ++ post = [] := hdec.symm
      simp only [List.append_eq_nil] at h1
      rw [h1.1.2]
      rfl
  | cons c rest ih =>
    intro h m post hdec
    simp only [lazyBody] at h
    split at h
    · cases h
    · rename_i hp
      cases hb : lazyBody close rest with
      | some m0 => rw [hb] at h; cases h
      | none =>
        cases m with
        | nil =>
          apply hp
          rw [List.isPrefixOf_iff_prefix]
          exact ⟨post, by simpa using hdec.symm⟩
        | cons a m'' =>
          simp only [List.cons_append, List.cons.injEq] at hdec
          exact ih hb m'' post hdec.2

theorem matchAt_some (op close : Str) (s m : Str) (h : matchAt op close s = some m) :
    (∃ post, s = op ++ m ++ close ++ post) ∧
    (∀ m' post', s = op ++ m' ++ close ++ post' → m.length ≤ m'.length) := by
  unfold matchAt at h
  split at h
  · rename_i hp
    rw [List.isPrefixOf_iff_prefix] at hp
    obtain ⟨t, ht⟩ := hp
    subst ht
    rw [List.drop_left] at h
    obtain ⟨⟨post, hpost⟩, hmin⟩ := lazyBody_some close t m h
    refine ⟨⟨post, by simp [hpost]⟩, ?_⟩
    intro m' post' hdec
    apply hmin m' post'
    simp only [List.append_assoc] at hdec
    simpa using List.append_cancel_left hdec
  · cases h

theorem matchAt_none (op close : Str) (s : Str) (h : matchAt op close s = none) :
    ∀ m post, s ≠ op ++ m ++ close ++ post := by
  intro m post hdec
  unfold matchAt at h
  split at h
  · subst hdec
    simp only [List.append_assoc, List.drop_left] at h
    exact lazyBody_none close _ h m post (by simp)
  · rename_i hp
    apply hp
    rw [List.isPrefixOf_iff_prefix]
    exact ⟨m ++ close ++ post, by simp [hdec]⟩

theorem findStringSubmatch_some (op close : Str) :
    ∀ (s m : Str), findStringSubmatch op close s = some m →
      ∃ pre post, IsFirstSpan op close s pre m post := by
  intro s
  induction s with
  | nil =>
    intro m h
    simp only [findStringSubmatch] at h
    obtain ⟨⟨post, hpost⟩, hmin⟩ := matchAt_some op close [] m h
    refine ⟨[], post, by simpa using hpost, fun _ _ _ _ => Nat.zero_le _, ?_⟩
    intro mid' post' hdec
    exact hmin mid' post' (by simpa using hdec)
  | cons c rest ih =>
    intro m h
    simp only [findStringSubmatch] at h
    cases hm : matchAt op close (c :: rest) with
    | some m0 =>
      rw [hm] at h
      simp only [Option.some.injEq] at h
      subst h
      obtain ⟨⟨post, hpost⟩, hmin⟩ := matchAt_some op close (c :: rest) m0 hm
      refine ⟨[], post, by simpa using hpost, fun _ _ _ _ => Nat.zero_le _, ?_⟩
      intro mid' post' hdec
      exact hmin mid' post' (by simpa using hdec)
    | none =>
      rw [hm] at h
      obtain ⟨pre, post, hdec, hfirst, hnear⟩ := ih m h
      refine ⟨c :: pre, post, by simp [hdec], ?_, ?_⟩
      · intro pre' mid' post' hd
        cases pre' with
        | nil =>
          exact absurd (by simpa using hd) (matchAt_none op close _ hm mid' post')
        | cons a pre'' =>
          simp only [List.cons_append, List.cons.injEq] at hd
          have := hfirst pre'' mid' post' hd.2
          simp only [List.length_cons]
          omega
      · intro mid' post' hd
        simp only [List.cons_append, List.cons.injEq, true_and] at hd
        exact hnear mid' post' hd

theorem findStringSubmatch_none (op close : Str) :
    ∀ (s : Str), findStringSubmatch op close s = none → ¬ HasSpan op close s := by
  intro s
  induction s with
  | nil =>
    intro h ⟨pre, mid, post, hdec⟩
    simp only [findStringSubmatch] at h
    have hpre : pre = [] := by
      have h1 : pre ++ op ++ mid ++ close ++ post = [] := hdec.symm
      simp only [List.append_eq_nil] at h1
      exact h1.1.1.1.1
    subst hpre
    exact matchAt_none op close [] h mid post (by simpa using hdec)
  | cons c rest ih =>
    intro h ⟨pre, mid, post, hdec⟩
    simp only [findStringSubmatch] at h
    cases hm : matchAt op close (c :: rest) with
    | some m0 => rw [hm] at h; cases h
    | none =>
      rw [hm] at h
      cases pre with
      | nil => exact matchAt_none op close _ hm mid post (by simpa using hdec)
      | cons a pre' =>
        simp only [List.cons_append, List.cons.injEq] at hdec
        exact ih h ⟨pre', mid, post, hdec.2⟩

/-- Two decompositions at the first span of the same text have the same interior. -/
theorem IsFirstSpan.mid_eq {op close content pre mid post pre1 mid1 post1 : Str}
    (h : IsFirstSpan op close content pre mid post)
    (h1 : IsFirstSpan op close content pre1 mid1 post1) : mid = mid1 := by
  obtain ⟨hd, hf, hn⟩ := h
  obtain ⟨hd1, hf1, hn1⟩ := h1
  have hlen : pre.length = pre1.length :=
    Nat.le_antisymm (hf pre1 mid1 post1 hd1) (hf1 pre mid post hd)
  have heq : pre ++ (op ++ mid ++ close ++ post) = pre1 ++ (op ++ mid1 ++ close ++ post1) := by
    simpa using hd.symm.trans hd1
  obtain ⟨hpre, hrest⟩ := List.append_inj heq hlen
  subst hpre
  have hrest2 : mid ++ (close ++ post) = mid1 ++ (close ++ post1) := by
    simp only [List.append_assoc] at hrest
    exact List.append_cancel_left hrest
  have hlen2 : mid.length = mid1.length :=
    Nat.le_antisymm (hn mid1 post1 hd1) (hn1 mid post hd)
  exact (List.append_inj hrest2 hlen2).1

/-- C1: for the two tags of the pipeline, when the text contains an opening tag
followed later by the closing tag, `extractTag` returns the trimmed text between the
first such opening tag and the nearest closing tag after it (such a span exists and its
interior is unique); otherwise it returns the whole text trimmed.  The two examples of
the specification hold.  The tag is one of the two tags of the pipeline, on which the
literal reading of the pattern is that of the regular expression. -/
theorem extractTag_first_span (content tag : Str)
    (_htag : tag = tagExplanation ∨ tag = tagComponentMapping) :
    (∀ pre mid post, IsFirstSpan (openTag tag) (closeTag tag) content pre mid post →
        extractTag content tag = TrimSpace mid) ∧
    (HasSpan (openTag tag) (closeTag tag) content →
        ∃ pre mid post, IsFirstSpan (openTag tag) (closeTag tag) content pre mid post ∧
          extractTag content tag = TrimSpace mid) ∧
    (¬ HasSpan (openTag tag) (closeTag tag) content →
        extractTag content tag = TrimSpace content) ∧
    extractTag " <explanation>  hello world  </explanation> extra".toList tagExplanation
      = "hello world".toList ∧
    extractTag "no tags here".toList tagExplanation = "no tags here".toList := by
  have hsome : ∀ m, findStringSubmatch (openTag tag) (closeTag tag) content = some m →
      extractTag content tag = TrimSpace m := by
    intro m hm
    simp [extractTag, hm]
  refine ⟨?_, ?_, ?_, by decide, by decide⟩
  · intro pre mid post hspan
    cases hf : findStringSubmatch (openTag tag) (closeTag tag) content with
    | none =>
      exact absurd ⟨pre, mid, post, hspan.1⟩ (findStringSubmatch_none _ _ _ hf)
    | some m =>
      obtain ⟨pre1, post1, h1⟩ := findStringSubmatch_some _ _ _ _ hf
      rw [hsome m hf, hspan.mid_eq h1]
  · intro hspan
    cases hf : findStringSubmatch (openTag tag) (closeTag tag) content with
    | none => exact absurd hspan (findStringSubmatch_none _ _ _ hf)
    | some m =>
      obtain ⟨pre1, post1, h1⟩ := findStringSubmatch_some _ _ _ _ hf
      exact ⟨pre1, m, post1, h1, hsome m hf⟩
  · intro hno
    cases hf : findStringSubmatch (openTag tag) (closeTag tag) content with
    | none => simp [extractTag, hf]
    | some m =>
      obtain ⟨pre1, post1, h1⟩ := findStringSubmatch_some _ _ _ _ hf
      exact absurd ⟨pre1, m, post1, h1.1⟩ hno

/-- Witness of C1 on a reply with two spans: the first span is taken. -/
theorem extractTag_first_span_witness :
    ∃ pre mid post,
      IsFirstSpan (openTag tagComponentMapping) (closeTag tagComponentMapping)
        "x<component_mapping>\n a </component_mapping><component_mapping>b</component_mapping>".toList
        pre mid post ∧
      extractTag
        "x<component_mapping>\n a </component_mapping><component_mapping>b</component_mapping>".toList
        tagComponentMapping = TrimSpace mid :=
  (extractTag_first_span _ tagComponentMapping (Or.inr rfl)).2.1
    ⟨"x".toList, "\n a ".toList,
      "<component_mapping>b</component_mapping>".toList, by decide⟩

/-! ## `cleanMermaidOutput` -/

theorem hasPrefix_append (a b : Str) :
    ∀ t : Str, HasPrefix t (a ++ b) = (HasPrefix t a && HasPrefix (t.drop a.length) b) := by
  induction a with
  | nil => intro t; simp [HasPrefix]
  | cons x a ih =>
    intro t
    cases t with
    | nil => simp [HasPrefix, List.isPrefixOf]
    | cons y t =>
      have := ih t
      simp only [HasPrefix] at this
      simp [HasPrefix, List.isPrefixOf, this, Bool.and_assoc]

/-- C2, the claim as stated fails: on a block fenced with the language tag `text` the
code keeps the tag, where the four steps of the claim strip it. -/
theorem cleanMermaidOutput_keeps_other_language :
    cleanMermaidOutput "```text\nA\n```".toList = "text\nA".toList ∧
    cleanOutputAnyLanguage "```text\nA\n```".toList = "A".toList ∧
    cleanMermaidOutput "```text\nA\n```".toList
      ≠ cleanOutputAnyLanguage "```text\nA\n```".toList := by
  decide

/-- C2, amended: on every text whose trimmed form does not begin with the fence, the
letters `mermaid` and a second fence, `cleanMermaidOutput` is: trim; strip one leading
fence marker, and the seven letters `mermaid` when they directly follow the marker, as
a literal prefix (any other word after the marker is kept, and of a longer word such as
`mermaidjs` only the letters `mermaid` are stripped); strip one trailing fence marker;
trim.  The example of the specification holds, and a block fenced with `mermaidjs`
keeps `js`. -/
theorem cleanMermaidOutput_eq_steps (text : Str)
    (h : HasPrefix (TrimSpace text) fenceMermaidFence = false) :
    cleanMermaidOutput text = cleanOutputMermaidTag text ∧
    cleanMermaidOutput "```mermaid\ngraph TD;\nA-->B\n```".toList
      = "graph TD;\nA-->B".toList ∧
    cleanMermaidOutput "```mermaidjs\nA\n```".toList = "js\nA".toList := by
  refine ⟨?_, by decide, by decide⟩
  have e1 : fenceMermaid = fence ++ mermaidWord := by decide
  have e2 : fenceMermaidFence = fence ++ mermaidWord ++ fence := by decide
  have l1 : fence.length = 3 := by decide
  have l2 : mermaidWord.length = 7 := by decide
  have l3 : fenceMermaid.length = 10 := by decide
  rw [e2, hasPrefix_append, hasPrefix_append] at h
  simp only [List.length_append, l1, l2] at h
  unfold cleanMermaidOutput cleanOutputMermaidTag
  simp only []
  generalize TrimSpace text = t at h ⊢
  have hm : HasPrefix t fenceMermaid
      = (HasPrefix t fence && HasPrefix (t.drop 3) mermaidWord) := by
    rw [e1, hasPrefix_append, l1]
  cases hf : HasPrefix t fence with
  | false =>
    have hm' : HasPrefix t fenceMermaid = false := by rw [hm, hf]; rfl
    simp [hm', hf]
  | true =>
    cases hmm : HasPrefix (List.drop 3 t) mermaidWord with
    | false =>
      have hm' : HasPrefix t fenceMermaid = false := by rw [hm, hf, hmm]; rfl
      simp [hm', hf, TrimPrefix, hmm, l1]
    | true =>
      have hm' : HasPrefix t fenceMermaid = true := by rw [hm, hf, hmm]; rfl
      have h3 : HasPrefix (List.drop 10 t) fence = false := by
        simpa [hf, hmm] using h
      simp [hm', hf, TrimPrefix, hmm, l1, l2, l3, h3]

/-- Witness of C2 (amended) on a block fenced with the tag `mermaid`. -/
theorem cleanMermaidOutput_eq_steps_witness :
    cleanMermaidOutput " ```mermaid\nflowchart LR\n``` ".toList
      = cleanOutputMermaidTag " ```mermaid\nflowchart LR\n``` ".toList ∧
    cleanMermaidOutput "```mermaid\ngraph TD;\nA-->B\n```".toList
      = "graph TD;\nA-->B".toList ∧
    cleanMermaidOutput "```mermaidjs\nA\n```".toList = "js\nA".toList :=
  cleanMermaidOutput_eq_steps " ```mermaid\nflowchart LR\n``` ".toList (by decide)

/-! ## The walk -/

theorem walkFn_fst (gi : Option GitIgnore) (relPath name : Str) (isDir : Bool)
    (paths : List Str) :
    (walkFn gi relPath name isDir paths).1 = (walkFn gi relPath name isDir []).1 := by
  unfold walkFn
  repeat' split
  all_goals rfl

theorem walkFn_snd (gi : Option GitIgnore) (relPath name : Str) (isDir : Bool)
    (paths : List Str) :
    (walkFn gi relPath name isDir paths).2
      = paths ++ (walkFn gi relPath name isDir []).2 := by
  unfold walkFn
  repeat' split
  all_goals simp

mutual
theorem walkEntry_append (gi : Option GitIgnore) :
    ∀ (segs : List Str) (e : Entry) (paths : List Str),
      walkEntry gi segs e paths = paths ++ walkEntry gi segs e []
  | segs, .file name, paths => by
    simp only [walkEntry]
    exact walkFn_snd gi _ _ _ _
  | segs, .dir name children, paths => by
    have h1 := walkFn_fst gi (relPathOf segs name) name true paths
    have h2 := walkFn_snd gi (relPathOf segs name) name true paths
    simp only [walkEntry]
    rcases hp : walkFn gi (relPathOf segs name) name true paths with ⟨a, ps⟩
    rcases hq : walkFn gi (relPathOf segs name) name true [] with ⟨b, qs⟩
    rw [hp, hq] at h1 h2
    simp only at h1 h2
    subst h1 h2
    cases a with
    | skipDir => simp
    | next =>
      simp only
      rw [walkEntries_append gi (segs ++ [name]) children (paths ++ qs),
        walkEntries_append gi (segs ++ [name]) children qs, List.append_assoc]
theorem walkEntries_append (gi : Option GitIgnore) :
    ∀ (segs : List Str) (es : List Entry) (paths : List Str),
      walkEntries gi segs es paths = paths ++ walkEntries gi segs es []
  | segs, [], paths => by simp [walkEntries]
  | segs, e :: es, paths => by
    simp only [walkEntries]
    rw [walkEntries_append gi segs es (walkEntry gi segs e paths),
      walkEntries_append gi segs es (walkEntry gi segs e []),
      walkEntry_append gi segs e paths, List.append_assoc]
end

theorem walkEntries_cons (gi : Option GitIgnore) (segs : List Str) (e : Entry)
    (es : List Entry) :
    walkEntries gi segs (e :: es) []
      = walkEntry gi segs e [] ++ walkEntries gi segs es [] := by
  simp only [walkEntries]
  exact walkEntries_append gi segs es _

theorem walkEntry_dir (gi : Option GitIgnore) (segs : List Str) (name : Str)
    (children : List Entry) :
    walkEntry gi segs (.dir name children) [] =
      if defaultExcludeDirs.contains name then []
      else if matchesPath gi (relPathOf segs name ++ sep) then []
      else (relPathOf segs name ++ sep) :: walkEntries gi (segs ++ [name]) children [] := by
  simp only [walkEntry, walkFn, if_true]
  cases h1 : defaultExcludeDirs.contains name with
  | true => simp only [↓reduceIte]
  | false =>
    cases h2 : matchesPath gi (relPathOf segs name ++ sep) with
    | true => simp only [↓reduceIte, Bool.false_eq_true]
    | false =>
      simp only [↓reduceIte, Bool.false_eq_true, List.nil_append]
      rw [walkEntries_append]
      rfl

/-! ## Names and relative paths -/

theorem validName_iff (name : Str) : validName name = true ↔ name ≠ [] ∧ '/' ∉ name := by
  cases name <;> simp [validName]

theorem Join_append_singleton (name : Str) :
    ∀ segs : List Str, segs ≠ [] → Join (segs ++ [name]) sep = Join segs sep ++ sep ++ name
  | [], h => absurd rfl h
  | [a], _ => by simp [Join]
  | a :: b :: rest, _ => by
    have ih := Join_append_singleton name (b :: rest) (by simp)
    simp only [List.cons_append] at ih
    show a ++ sep ++ Join (b :: (rest ++ [name])) sep = _
    rw [ih]
    simp only [Join, List.append_assoc]

/-- A relative path is its last segment, preceded by nothing or by a text that ends with
the separator. -/
theorem relPathOf_eq (segs : List Str) (name : Str) :
    ∃ q, relPathOf segs name = q ++ name ∧ (q = [] ∨ ∃ q1, q = q1 ++ sep) := by
  cases segs with
  | nil => exact ⟨[], by simp [relPathOf, Join], Or.inl rfl⟩
  | cons a rest =>
    refine ⟨Join (a :: rest) sep ++ sep, ?_, Or.inr ⟨_, rfl⟩⟩
    unfold relPathOf
    rw [Join_append_singleton name (a :: rest) (by simp)]

theorem baseName_relPathOf (segs : List Str) (name : Str) (hv : validName name = true) :
    baseName (relPathOf segs name) = name := by
  rw [validName_iff] at hv
  obtain ⟨q, hq, hq1⟩ := relPathOf_eq segs name
  have hall : ∀ a ∈ name.reverse, (fun c : Char => c != '/') a = true := by
    intro a ha
    have : a ≠ '/' := by
      rintro rfl
      exact hv.2 (List.mem_reverse.mp ha)
    simpa using this
  rw [hq]
  unfold baseName
  rcases hq1 with rfl | ⟨q1, rfl⟩
  · simp only [List.nil_append]
    rw [List.takeWhile_eq_self_iff.mpr hall, List.reverse_reverse]
  · have : (q1 ++ sep ++ name).reverse = name.reverse ++ ('/' :: q1.reverse) := by
      simp [sep]
    rw [this, List.takeWhile_append_of_pos hall]
    simp

theorem relPathOf_not_dir (segs : List Str) (name : Str) (hv : validName name = true) :
    ¬ ∃ q, relPathOf segs name = q ++ sep := by
  rw [validName_iff] at hv
  rintro ⟨q, hq⟩
  obtain ⟨q0, hq0, -⟩ := relPathOf_eq segs name
  rw [hq0] at hq
  have hr := congrArg List.reverse hq
  simp only [List.reverse_append, sep] at hr
  cases hn : name.reverse with
  | nil => exact hv.1 (by simpa using hn)
  | cons c r =>
    rw [hn] at hr
    simp only [String.toList, List.reverse_cons, List.reverse_nil, List.nil_append,
      List.cons_append, List.cons.injEq] at hr
    have hc : c ∈ name := List.mem_reverse.mp (by rw [hn]; exact List.mem_cons_self _ _)
    rw [hr.1] at hc
    exact hv.2 hc

/-! ## The file rules -/

theorem walkFn_file (gi : Option GitIgnore) (relPath name : Str) (paths : List Str) :
    (walkFn gi relPath name false paths).1 = WalkAction.next ∧
    (passesFileRules gi relPath name →
      (walkFn gi relPath name false paths).2 = paths ++ [relPath]) ∧
    (¬ passesFileRules gi relPath name → (walkFn gi relPath name false paths).2 = paths) := by
  unfold passesFileRules
  simp only [walkFn, Bool.false_eq_true, if_false]
  cases h1 : defaultExcludeFiles.contains name <;>
  cases h2 : defaultExcludeExtensions.contains (filepathExt name) <;>
  cases h3 : HasSuffix name minJs <;>
  cases h4 : HasSuffix name minCss <;>
  cases h5 : matchesPath gi relPath <;>
  simp

theorem walkEntry_file (gi : Option GitIgnore) (segs : List Str) (name p : Str) :
    p ∈ walkEntry gi segs (.file name) [] ↔
      p = relPathOf segs name ∧ passesFileRules gi (relPathOf segs name) name := by
  obtain ⟨-, hyes, hno⟩ := walkFn_file gi (relPathOf segs name) name []
  simp only [walkEntry]
  by_cases hs : passesFileRules gi (relPathOf segs name) name
  · rw [hyes hs]
    simp [hs]
  · rw [hno hs]
    simp [hs]

mutual
theorem walkEntry_sound (gi : Option GitIgnore) :
    ∀ (segs : List Str) (e : Entry), (∀ n ∈ e.names, validName n = true) →
      ∀ p ∈ walkEntry gi segs e [], (∃ q, p = q ++ sep) ∨ passesFileRules gi p (baseName p)
  | segs, .file name, hv, p, hp => by
    rw [walkEntry_file] at hp
    obtain ⟨rfl, hs⟩ := hp
    right
    rw [baseName_relPathOf segs name (hv name (by simp [Entry.names]))]
    exact hs
  | segs, .dir name children, hv, p, hp => by
    rw [walkEntry_dir] at hp
    split at hp
    · cases hp
    · split at hp
      · cases hp
      · rcases List.mem_cons.mp hp with rfl | hp
        · exact Or.inl ⟨_, rfl⟩
        · exact walkEntries_sound gi (segs ++ [name]) children
            (fun n hn => hv n (by simp [Entry.names, hn])) p hp
theorem walkEntries_sound (gi : Option GitIgnore) :
    ∀ (segs : List Str) (es : List Entry), (∀ n ∈ namesOfEntries es, validName n = true) →
      ∀ p ∈ walkEntries gi segs es [], (∃ q, p = q ++ sep) ∨ passesFileRules gi p (baseName p)
  | segs, [], _, p, hp => by simp [walkEntries] at hp
  | segs, e :: es, hv, p, hp => by
    rw [walkEntries_cons] at hp
    rcases List.mem_append.mp hp with hp | hp
    · exact walkEntry_sound gi segs e (fun n hn => hv n (by simp [namesOfEntries, hn])) p hp
    · exact walkEntries_sound gi segs es
        (fun n hn => hv n (by simp [namesOfEntries, hn])) p hp
end

theorem mem_walkEntries_of_mem (gi : Option GitIgnore) (segs : List Str) (e : Entry) (p : Str) :
    ∀ es : List Entry, e ∈ es → p ∈ walkEntry gi segs e [] → p ∈ walkEntries gi segs es [] := by
  intro es
  induction es with
  | nil => intro h; cases h
  | cons a es ih =>
    intro h hp
    rw [walkEntries_cons]
    rcases List.mem_cons.mp h with rfl | h
    · exact List.mem_append_left _ hp
    · exact List.mem_append_right _ (ih h hp)

theorem names_subset_of_mem (e : Entry) :
    ∀ es : List Entry, e ∈ es → ∀ n ∈ e.names, n ∈ namesOfEntries es := by
  intro es
  induction es with
  | nil => intro h; cases h
  | cons a es ih =>
    intro h n hn
    simp only [namesOfEntries, List.mem_append]
    rcases List.mem_cons.mp h with rfl | h
    · exact Or.inl hn
    · exact Or.inr (ih h n hn)

theorem walkFn_dir_next (gi : Option GitIgnore) (relPath name : Str)
    (h : (walkFn gi relPath name true []).1 = WalkAction.next) :
    defaultExcludeDirs.contains name = false ∧ matchesPath gi (relPath ++ sep) = false := by
  simp only [walkFn, if_true] at h
  cases h1 : defaultExcludeDirs.contains name <;>
  cases h2 : matchesPath gi (relPath ++ sep) <;>
  rw [h1, h2] at h <;>
  simp at h ⊢

theorem Visited.subset {gi : Option GitIgnore} {segs segs1 : List Str} {es : List Entry}
    {e : Entry} (h : Visited gi segs es segs1 e) :
    ∀ p ∈ walkEntry gi segs1 e [], p ∈ walkEntries gi segs es [] := by
  induction h with
  | here segs es e hmem => exact fun p hp => mem_walkEntries_of_mem gi segs e p es hmem hp
  | inside segs es name children segs1 e hmem hnext _ ih =>
    intro p hp
    apply mem_walkEntries_of_mem gi segs _ p es hmem
    obtain ⟨h1, h2⟩ := walkFn_dir_next gi _ _ hnext
    rw [walkEntry_dir, h1, h2]
    simp only [Bool.false_eq_true, if_false]
    exact List.mem_cons_of_mem _ (ih p hp)

theorem Visited.names {gi : Option GitIgnore} {segs segs1 : List Str} {es : List Entry}
    {e : Entry} (h : Visited gi segs es segs1 e) :
    ∀ n ∈ e.names, n ∈ namesOfEntries es := by
  induction h with
  | here segs es e hmem => exact names_subset_of_mem e es hmem
  | inside segs es name children segs1 e hmem _ _ ih =>
    intro n hn
    exact names_subset_of_mem _ es hmem n (by simp [Entry.names, ih n hn])

theorem filepathExt_js (stem : Str) : filepathExt (stem ++ dotJs) = dotJs := by
  simp [filepathExt, dotJs, extFrom]

theorem excludeFiles_not_js (stem : Str) :
    defaultExcludeFiles.contains (stem ++ dotJs) = false := by
  have hall : ∀ n ∈ defaultExcludeFiles, HasSuffix n dotJs = false := by decide
  cases h : defaultExcludeFiles.contains (stem ++ dotJs) with
  | false => rfl
  | true =>
    have hmem : stem ++ dotJs ∈ defaultExcludeFiles := by simpa using h
    have h1 := hall _ hmem
    have h2 : HasSuffix (stem ++ dotJs) dotJs = true := by
      unfold HasSuffix
      rw [List.isSuffixOf_iff_suffix]
      exact List.suffix_append _ _
    rw [h1] at h2
    cases h2

theorem minCss_not_js (stem : Str) : HasSuffix (stem ++ dotJs) minCss = false := by
  simp [HasSuffix, List.isSuffixOf, dotJs, minCss, List.isPrefixOf]

/-! ## The file rules in the words of the specification -/

theorem extFrom_no_dot : ∀ (l acc : Str), '.' ∉ l → extFrom l acc = []
  | [], _, _ => rfl
  | c :: l, acc, h => by
    have hc : c ≠ '.' := fun e => h (by simp [e])
    have hl : '.' ∉ l := fun e => h (List.mem_cons_of_mem _ e)
    simp only [extFrom]
    split_ifs
    · rfl
    · exact extFrom_no_dot l _ hl

theorem extFrom_dot (s : Str) :
    ∀ (l acc : Str), '.' ∉ l → '/' ∉ l →
      extFrom (l ++ '.' :: s) acc = '.' :: (l.reverse ++ acc)
  | [], acc, _, _ => by simp [extFrom]
  | c :: l, acc, hd, hs => by
    have hc1 : c ≠ '.' := fun e => hd (by simp [e])
    have hc2 : c ≠ '/' := fun e => hs (by simp [e])
    have hl1 : '.' ∉ l := fun e => hd (List.mem_cons_of_mem _ e)
    have hl2 : '/' ∉ l := fun e => hs (List.mem_cons_of_mem _ e)
    have ih := extFrom_dot s l (c :: acc) hl1 hl2
    simp only [List.cons_append, extFrom, hc1, hc2, if_false]
    show extFrom (l ++ '.' :: s) (c :: acc) = _
    rw [ih]
    simp

theorem extFrom_sep (s : Str) :
    ∀ (l acc : Str), '.' ∉ l → '/' ∈ l → extFrom (l ++ '.' :: s) acc = []
  | [], _, _, hs => by cases hs
  | c :: l, acc, hd, hs => by
    have hc1 : c ≠ '.' := fun e => hd (by simp [e])
    have hl1 : '.' ∉ l := fun e => hd (List.mem_cons_of_mem _ e)
    simp only [List.cons_append, extFrom]
    split_ifs with h1
    · rfl
    · have hl2 : '/' ∈ l := by
        rcases List.mem_cons.mp hs with e | e
        · exact absurd e.symm h1
        · exact e
      exact extFrom_sep s l (c :: acc) hl1 hl2

/-- The suffix after the last dot is determined by the name. -/
theorem lastDot_unique {stem rest stem1 rest1 : Str}
    (h : stem ++ '.' :: rest = stem1 ++ '.' :: rest1) (hr : '.' ∉ rest)
    (hr1 : '.' ∉ rest1) : rest = rest1 := by
  have key : ∀ (st rs : Str), '.' ∉ rs →
      ((st ++ '.' :: rs).reverse).takeWhile (fun c => c != '.') = rs.reverse := by
    intro st rs hrs
    have hall : ∀ a ∈ rs.reverse, (fun c : Char => c != '.') a = true := by
      intro a ha
      have : a ≠ '.' := by
        rintro rfl
        exact hrs (List.mem_reverse.mp ha)
      simpa using this
    have e : (st ++ '.' :: rs).reverse = rs.reverse ++ ('.' :: st.reverse) := by simp
    rw [e, List.takeWhile_append_of_pos hall]
    simp
  have h1 := key stem rest hr
  have h2 := key stem1 rest1 hr1
  rw [h] at h1
  have := h1.symm.trans h2
  simpa using this

theorem excludeExtensions_iff (name : Str) :
    defaultExcludeExtensions.contains (filepathExt name) = false ↔
      ∀ ext, IsExtension name ext → ext ∉ defaultExcludeExtensions := by
  have hnil : ([] : Str) ∉ defaultExcludeExtensions := by decide
  have htable : ∀ e ∈ defaultExcludeExtensions, '/' ∉ e := by decide
  have hcontains : ∀ x : Str, defaultExcludeExtensions.contains x = false ↔
      x ∉ defaultExcludeExtensions := by
    intro x
    rw [Bool.eq_false_iff, Ne, List.contains, List.elem_iff]
  rw [hcontains]
  by_cases hdot : '.' ∈ name
  · obtain ⟨as, bs, hrev, hnot⟩ := List.eq_append_cons_of_mem (List.mem_reverse.mpr hdot)
    have hname : name = bs.reverse ++ '.' :: as.reverse := by
      have := congrArg List.reverse hrev
      simpa using this
    have hrest : '.' ∉ as.reverse := fun e => hnot (List.mem_reverse.mp e)
    have hspec : (∀ ext, IsExtension name ext → ext ∉ defaultExcludeExtensions) ↔
        '.' :: as.reverse ∉ defaultExcludeExtensions := by
      constructor
      · intro h
        exact h _ (Or.inr ⟨_, _, hname, hrest, rfl⟩)
      · rintro h ext (⟨hno, -⟩ | ⟨stem, rest, hn, hr, rfl⟩)
        · exact absurd hdot hno
        · rw [lastDot_unique (hn.symm.trans hname) hr hrest]
          exact h
    rw [hspec]
    by_cases hsep : '/' ∈ as
    · have hext : filepathExt name = [] := by
        unfold filepathExt
        rw [hrev]
        exact extFrom_sep _ as [] hnot hsep
      rw [hext]
      constructor
      · intro _ hmem
        exact htable _ hmem (List.mem_cons_of_mem _ (List.mem_reverse.mpr hsep))
      · exact fun _ => hnil
    · have hext : filepathExt name = '.' :: as.reverse := by
        unfold filepathExt
        rw [hrev, extFrom_dot _ as [] hnot hsep]
        simp
      rw [hext]
  · have hext : filepathExt name = [] := by
      unfold filepathExt
      exact extFrom_no_dot _ _ (fun e => hdot (List.mem_reverse.mp e))
    rw [hext]
    constructor
    · rintro - ext (⟨-, rfl⟩ | ⟨stem, rest, hn, -, -⟩)
      · exact hnil
      · exact absurd (by rw [hn]; simp) hdot
    · exact fun _ => hnil

theorem hasSuffix_false_iff (name suf : Str) : HasSuffix name suf = false ↔ ¬ suf <:+ name := by
  unfold HasSuffix
  rw [Bool.eq_false_iff, Ne, List.isSuffixOf_iff_suffix]

theorem matchesPath_false_iff (gi : Option GitIgnore) (p : Str) :
    matchesPath gi p = false ↔ ∀ m : GitIgnore, gi = some m → m p = false := by
  cases gi with
  | none => simp [matchesPath]
  | some m0 => simp [matchesPath]

/-- The tests of the callback say what the specification says. -/
theorem passesFileRules_iff (gi : Option GitIgnore) (relPath name : Str) :
    passesFileRules gi relPath name ↔ FileSurvives gi relPath name := by
  unfold passesFileRules FileSurvives
  have h1 : defaultExcludeFiles.contains name = false ↔ name ∉ defaultExcludeFiles := by
    rw [Bool.eq_false_iff, Ne, List.contains, List.elem_iff]
  rw [h1, excludeExtensions_iff, hasSuffix_false_iff, hasSuffix_false_iff,
    matchesPath_false_iff]

/-- C4: on a file the callback never prunes, and it records the relative path exactly
when the name is not an excluded file name, the extension (the suffix from the last dot
of the name) is not an excluded extension, the name ends neither with `.min.js` nor with
`.min.css`, and the ignore matcher (if any) does not match the relative path.  In a
well-formed tree, a visited file is among the lines of the listing exactly under these
conditions.  `yarn.lock` and `app.min.js` are never recorded, and no file that the
matcher matches is; a name ending in `.js` but not in `.min.js` passes the exclusion
policy, so it is recorded exactly when no matcher matches.  On a tree with a file for
each rule, and a matcher for `docs/draft.md`, the listing is the directories and the two
files that pass. -/
theorem file_recorded_iff (gi : Option GitIgnore) :
    (∀ relPath name paths,
      (walkFn gi relPath name false paths).1 = WalkAction.next ∧
      ((walkFn gi relPath name false paths).2 = paths ++ [relPath] ↔
        FileSurvives gi relPath name) ∧
      (¬ FileSurvives gi relPath name → (walkFn gi relPath name false paths).2 = paths)) ∧
    (∀ root segs name, WellFormed root → Visited gi [] root segs (Entry.file name) →
      (relPathOf segs name ∈ sortStrings (walkEntries gi [] root []) ↔
        FileSurvives gi (relPathOf segs name) name)) ∧
    (∀ relPath paths,
      (walkFn gi relPath "yarn.lock".toList false paths).2 = paths ∧
      (walkFn gi relPath "app.min.js".toList false paths).2 = paths) ∧
    (∀ (m : GitIgnore) relPath name paths, gi = some m → m relPath = true →
      (walkFn gi relPath name false paths).2 = paths) ∧
    (∀ relPath stem, ¬ minJs <:+ stem ++ dotJs →
      (FileSurvives gi relPath (stem ++ dotJs) ↔
        ∀ m : GitIgnore, gi = some m → m relPath = false)) ∧
    ScanDirectory mixedTree (some ignoreDraft)
      = "docs/\nnotes.md\nsrc/\nsrc/app.js".toList ∧
    ScanDirectory mixedTree none
      = "docs/\ndocs/draft.md\nnotes.md\nsrc/\nsrc/app.js".toList := by
  refine ⟨?_, ?_, ?_, ?_, ?_, by decide, by decide⟩
  · intro relPath name paths
    obtain ⟨h1, hyes, hno⟩ := walkFn_file gi relPath name paths
    rw [passesFileRules_iff] at hyes hno
    refine ⟨h1, ⟨?_, hyes⟩, hno⟩
    intro heq
    by_contra hs
    rw [hno hs] at heq
    have := congrArg List.length heq
    simp at this
  · intro root segs name hwf hvis
    rw [← passesFileRules_iff]
    unfold sortStrings
    rw [List.mem_insertionSort]
    constructor
    · intro hp
      have hv : validName name = true := hwf name (hvis.names name (by simp [Entry.names]))
      rcases walkEntries_sound gi [] root hwf _ hp with hdir | hs
      · exact absurd hdir (relPathOf_not_dir segs name hv)
      · rwa [baseName_relPathOf segs name hv] at hs
    · intro hs
      exact hvis.subset _ ((walkEntry_file gi segs name _).mpr ⟨rfl, hs⟩)
  · intro relPath paths
    constructor
    · refine (walkFn_file gi relPath _ paths).2.2 (fun hs => ?_)
      exact absurd hs.1 (by decide)
    · refine (walkFn_file gi relPath _ paths).2.2 (fun hs => ?_)
      exact absurd hs.2.2.1 (by decide)
  · intro m relPath name paths hgi hm
    refine (walkFn_file gi relPath name paths).2.2 (fun hs => ?_)
    have := (matchesPath_false_iff gi relPath).mp hs.2.2.2.2 m hgi
    rw [hm] at this
    cases this
  · intro relPath stem hmin
    rw [← passesFileRules_iff]
    unfold passesFileRules
    rw [excludeFiles_not_js, filepathExt_js, minCss_not_js,
      (hasSuffix_false_iff _ _).mpr hmin, matchesPath_false_iff]
    simp only [true_and]
    constructor
    · exact fun h => h.2
    · exact fun h => ⟨by decide, h⟩

/-- Witness of C4: in the tree with a file for each rule, read with the matcher for
`docs/draft.md`, the visited file `src/app.js` is a line of the listing. -/
theorem file_recorded_iff_witness :
    relPathOf ["src".toList] "app.js".toList
      ∈ sortStrings (walkEntries (some ignoreDraft) [] mixedTree []) :=
  ((file_recorded_iff (some ignoreDraft)).2.1 mixedTree ["src".toList] "app.js".toList
      (by unfold WellFormed; decide)
      (Visited.inside [] mixedTree "src".toList
        [Entry.file "app.js".toList, Entry.file "app.min.js".toList,
          Entry.file "yarn.lock".toList]
        ["src".toList] (Entry.file "app.js".toList)
        (by simp [mixedTree]) (by decide)
        (Visited.here _ _ _ (by simp)))).mpr
    ((passesFileRules_iff _ _ _).mp (by unfold passesFileRules; decide))

/-- C3, the claim as stated fails: files named `.DS_Store`, `build` and `Thumbs.db`
bear names of the table `defaultExcludeDirs`, and the listing contains them. -/
theorem ScanDirectory_lists_excluded_file_names :
    defaultExcludeDirs.contains ".DS_Store".toList = true ∧
    defaultExcludeDirs.contains "build".toList = true ∧
    defaultExcludeDirs.contains "Thumbs.db".toList = true ∧
    ScanDirectory metadataTree none
      = ".DS_Store\nbuild\nsrc/\nsrc/Thumbs.db\nsrc/main.go".toList := by
  decide

/-! ## Order of the listing -/

theorem strLE_cons (a b : Char) (as bs : Str) :
    strLE (a :: as) (b :: bs) = true ↔ a < b ∨ (a = b ∧ strLE as bs = true) := by
  simp only [strLE]
  split_ifs with h1 h2
  · simp [h1]
  · have hne : a ≠ b := ne_of_gt h2
    simp [h1, hne]
  · have heq : a = b := le_antisymm (not_lt.mp h2) (not_lt.mp h1)
    simp [heq]

theorem strLE_total : ∀ a b : Str, strLE a b = true ∨ strLE b a = true
  | [], _ => Or.inl rfl
  | _ :: _, [] => Or.inr rfl
  | a :: as, b :: bs => by
    rw [strLE_cons, strLE_cons]
    rcases lt_trichotomy a b with h | h | h
    · exact Or.inl (Or.inl h)
    · rcases strLE_total as bs with h1 | h1
      · exact Or.inl (Or.inr ⟨h, h1⟩)
      · exact Or.inr (Or.inr ⟨h.symm, h1⟩)
    · exact Or.inr (Or.inl h)

theorem strLE_trans : ∀ a b c : Str, strLE a b = true → strLE b c = true → strLE a c = true
  | [], _, _, _, _ => rfl
  | _ :: _, [], _, h, _ => by simp [strLE] at h
  | _ :: _, _ :: _, [], _, h => by simp [strLE] at h
  | a :: as, b :: bs, c :: cs, h1, h2 => by
    rw [strLE_cons] at h1 h2 ⊢
    rcases h1 with h1 | ⟨rfl, h1⟩
    · rcases h2 with h2 | ⟨rfl, _⟩
      · exact Or.inl (lt_trans h1 h2)
      · exact Or.inl h1
    · rcases h2 with h2 | ⟨rfl, h2⟩
      · exact Or.inl h2
      · exact Or.inr ⟨rfl, strLE_trans as bs cs h1 h2⟩

theorem strLE_antisymm : ∀ a b : Str, strLE a b = true → strLE b a = true → a = b
  | [], [], _, _ => rfl
  | [], _ :: _, _, h => by simp [strLE] at h
  | _ :: _, [], h, _ => by simp [strLE] at h
  | a :: as, b :: bs, h1, h2 => by
    rw [strLE_cons] at h1 h2
    rcases h1 with h1 | ⟨rfl, h1⟩
    · rcases h2 with h2 | ⟨rfl, _⟩
      · exact absurd h2 (lt_asymm h1)
      · exact absurd h1 (lt_irrefl _)
    · rcases h2 with h2 | ⟨_, h2⟩
      · exact absurd h2 (lt_irrefl _)
      · rw [strLE_antisymm as bs h1 h2]

/-- The comparison of the model is the lexicographic order: a string is below another
exactly when it is a prefix of it or the first differing characters are in that order. -/
theorem strLE_iff_lex : ∀ a b : Str, strLE a b = true ↔
    (a <+: b ∨ ∃ p x y ra rb, a = p ++ x :: ra ∧ b = p ++ y :: rb ∧ x < y)
  | [], b => by simp [strLE]
  | a :: as, [] => by
    simp only [strLE, Bool.false_eq_true, false_iff, not_or]
    constructor
    · simp
    · rintro ⟨p, x, y, ra, rb, -, h, -⟩
      cases p <;> simp at h
  | a :: as, b :: bs => by
    rw [strLE_cons, strLE_iff_lex as bs]
    constructor
    · rintro (h | ⟨rfl, h | ⟨p, x, y, ra, rb, h1, h2, h3⟩⟩)
      · exact Or.inr ⟨[], a, b, as, bs, rfl, rfl, h⟩
      · exact Or.inl (by simpa [List.cons_prefix_cons] using h)
      · exact Or.inr ⟨a :: p, x, y, ra, rb, by simp [h1], by simp [h2], h3⟩
    · rintro (h | ⟨p, x, y, ra, rb, h1, h2, h3⟩)
      · rw [List.cons_prefix_cons] at h
        exact Or.inr ⟨h.1, Or.inl h.2⟩
      · cases p with
        | nil =>
          simp only [List.nil_append, List.cons.injEq] at h1 h2
          rw [h1.1, h2.1]
          exact Or.inl h3
        | cons c p =>
          simp only [List.cons_append, List.cons.injEq] at h1 h2
          refine Or.inr ⟨h1.1.trans h2.1.symm, Or.inr ⟨p, x, y, ra, rb, h1.2, h2.2, h3⟩⟩

theorem Join_eq_intercalate (sp : Str) : ∀ L : List Str, Join L sp = sp.intercalate L
  | [] => rfl
  | [a] => by simp [Join, List.intercalate]
  | a :: b :: rest => by
    have ih := Join_eq_intercalate sp (b :: rest)
    simp only [List.intercalate, List.intersperse, List.flatten] at ih ⊢
    simp only [Join, ih, List.append_assoc]

theorem sortStrings_sorted (l : List Str) :
    (sortStrings l).Sorted (fun a b => strLE a b = true) := by
  haveI : IsTotal Str (fun a b => strLE a b = true) := ⟨strLE_total⟩
  haveI : IsTrans Str (fun a b => strLE a b = true) := ⟨strLE_trans⟩
  exact List.sorted_insertionSort _ l

theorem sortStrings_perm (l : List Str) : (sortStrings l).Perm l :=
  List.perm_insertionSort _ l

theorem sortStrings_eq_of_perm {l l1 : List Str} (h : l.Perm l1) :
    sortStrings l = sortStrings l1 := by
  haveI : IsAntisymm Str (fun a b => strLE a b = true) := ⟨strLE_antisymm⟩
  exact List.eq_of_perm_of_sorted
    (((sortStrings_perm l).trans h).trans (sortStrings_perm l1).symm)
    (sortStrings_sorted l) (sortStrings_sorted l1)

theorem Reorder.perm (gi : Option GitIgnore) {es es1 : List Entry} (h : Reorder es es1) :
    ∀ segs, (walkEntries gi segs es []).Perm (walkEntries gi segs es1 []) := by
  induction h with
  | refl es => exact fun _ => List.Perm.refl _
  | swap a b es =>
    intro segs
    simp only [walkEntries_cons, ← List.append_assoc]
    exact List.Perm.append_right _ List.perm_append_comm
  | cons e es es1 _ ih =>
    intro segs
    simp only [walkEntries_cons]
    exact List.Perm.append_left _ (ih segs)
  | inDir name cs cs1 es _ ih =>
    intro segs
    simp only [walkEntries_cons, walkEntry_dir]
    apply List.Perm.append_right
    split
    · exact List.Perm.refl _
    · split
      · exact List.Perm.refl _
      · exact List.Perm.cons _ (ih _)
  | trans a b c _ _ ih1 ih2 => exact fun segs => (ih1 segs).trans (ih2 segs)

/-- C5: the listing does not depend on the order in which the entries of the directories
are read; it is the recorded paths, in ascending lexicographic order, joined by single
newlines with none after the last path; on the scenario tree it is
`README.md`, `src/`, `src/index.js`. -/
theorem ScanDirectory_deterministic :
    (∀ (gi : Option GitIgnore) (root root1 : List Entry), Reorder root root1 →
      ScanDirectory root1 gi = ScanDirectory root gi) ∧
    (∀ (gi : Option GitIgnore) (root : List Entry), ∃ lines : List Str,
      ScanDirectory root gi = newline.intercalate lines ∧
      lines.Perm (walkEntries gi [] root []) ∧
      lines.Sorted (fun a b => strLE a b = true)) ∧
    (∀ a b : Str, strLE a b = true ↔
      (a <+: b ∨ ∃ p x y ra rb, a = p ++ x :: ra ∧ b = p ++ y :: rb ∧ x < y)) ∧
    ScanDirectory scenarioTree none = "README.md\nsrc/\nsrc/index.js".toList := by
  refine ⟨?_, ?_, strLE_iff_lex, by decide⟩
  · intro gi root root1 h
    unfold ScanDirectory
    rw [sortStrings_eq_of_perm (h.perm gi [])]
  · intro gi root
    exact ⟨_, Join_eq_intercalate _ _, sortStrings_perm _, sortStrings_sorted _⟩

/-- Witness of C5: the scenario tree with the entries of the root read in the reverse
order gives the same listing. -/
theorem ScanDirectory_deterministic_witness :
    ScanDirectory
        [.file "README.md".toList,
         .dir "node_modules".toList [.dir "pkg".toList [.file "index.js".toList]],
         .dir "src".toList [.file "index.js".toList]] none
      = ScanDirectory scenarioTree none :=
  ScanDirectory_deterministic.1 none scenarioTree _
    (Reorder.trans _ _ _ (Reorder.cons _ _ _ (Reorder.swap _ _ _))
      (Reorder.trans _ _ _ (Reorder.swap _ _ _) (Reorder.cons _ _ _ (Reorder.swap _ _ _))))

/-! ## The pipeline -/

/-- C6: when the three calls succeed with first choices `r1`, `r2`, `r3`, the blocking
pipeline fails with the invalid-instructions error (wrapped as the failure of phase 3)
and returns no `Result` exactly when the sanitized `r3` is `BAD_INSTRUCTIONS`; otherwise
it returns a `Result` whose `Diagram` is the sanitized `r3`. -/
theorem GenerateDiagram_bad_instructions (P : Prompts) (g : Generator) (log : List Request)
    (fileTree readme instructions r1 r2 r3 : Str) (rest1 rest2 rest3 : List Str)
    (h1 : g.client.CreateChatCompletion log (firstRequest P g fileTree readme false)
      = .ok (r1 :: rest1))
    (h2 : g.client.CreateChatCompletion (log ++ [firstRequest P g fileTree readme false])
        (secondRequest P g (extractTag r1 tagExplanation) fileTree false)
      = .ok (r2 :: rest2))
    (h3 : g.client.CreateChatCompletion
        (log ++ [firstRequest P g fileTree readme false]
          ++ [secondRequest P g (extractTag r1 tagExplanation) fileTree false])
        (thirdRequest P g (extractTag r1 tagExplanation)
          (extractTag r2 tagComponentMapping) instructions false)
      = .ok (r3 :: rest3)) :
    ((GenerateDiagram P g log fileTree readme instructions).1
        = .error (.phaseFailed 3 .invalidInstructions) ↔
      cleanMermaidOutput r3 = badInstructions) ∧
    ((∃ res, (GenerateDiagram P g log fileTree readme instructions).1 = .ok res) ↔
      cleanMermaidOutput r3 ≠ badInstructions) ∧
    (cleanMermaidOutput r3 ≠ badInstructions →
      (GenerateDiagram P g log fileTree readme instructions).1
        = .ok ⟨cleanMermaidOutput r3, extractTag r1 tagExplanation,
            extractTag r2 tagComponentMapping⟩) := by
  have hgd : (GenerateDiagram P g log fileTree readme instructions).1 =
      if cleanMermaidOutput r3 = badInstructions then
        .error (.phaseFailed 3 .invalidInstructions)
      else .ok ⟨cleanMermaidOutput r3, extractTag r1 tagExplanation,
            extractTag r2 tagComponentMapping⟩ := by
    simp only [GenerateDiagram, generateExplanation, generateMapping, generateDiagram, h1,
      h2, h3]
    split_ifs <;> rfl
  rw [hgd]
  by_cases hb : cleanMermaidOutput r3 = badInstructions
  · simp [hb]
  · simp [hb]

/-- Witness of C6 on the sample service with the marker fenced as a code block. -/
theorem GenerateDiagram_bad_instructions_witness :
    (GenerateDiagram samplePrompts (sampleGenerator "```\nBAD_INSTRUCTIONS\n```".toList) []
        scenarioListing scenarioReadme []).1
      = .error (.phaseFailed 3 .invalidInstructions) :=
  (GenerateDiagram_bad_instructions samplePrompts
      (sampleGenerator "```\nBAD_INSTRUCTIONS\n```".toList) []
      scenarioListing scenarioReadme [] (sampleText [] 0) (sampleText [] 1)
      "```\nBAD_INSTRUCTIONS\n```".toList [] [] [] rfl rfl rfl).1.mpr (by decide)

/-- C7: when the calls of phases 1 and 2 succeed with first choices `r1` and `r2`, the
prompt of phase 2 is rendered from `extractTag r1 "explanation"`, the prompt of phase 3
from that text and `extractTag r2 "component_mapping"`, whatever the third call returns;
a returned `Result` carries these two texts; and a formatter that embeds its explanation
argument verbatim yields a phase-2 prompt that contains the extracted phase-1 text. -/
theorem GenerateDiagram_threads_extracted (P : Prompts) (g : Generator)
    (log : List Request) (fileTree readme instructions r1 r2 : Str)
    (rest1 rest2 : List Str)
    (h1 : g.client.CreateChatCompletion log (firstRequest P g fileTree readme false)
      = .ok (r1 :: rest1))
    (h2 : g.client.CreateChatCompletion (log ++ [firstRequest P g fileTree readme false])
        (secondRequest P g (extractTag r1 tagExplanation) fileTree false)
      = .ok (r2 :: rest2)) :
    (GenerateDiagram P g log fileTree readme instructions).2 =
      log ++
        [⟨g.model, P.SystemFirstPrompt, P.FormatFirstPrompt fileTree readme, false⟩,
         ⟨g.model, P.SystemSecondPrompt,
          P.FormatSecondPrompt (extractTag r1 tagExplanation) fileTree, false⟩,
         ⟨g.model, P.GetThirdSystemPrompt (!instructions.isEmpty),
          P.FormatThirdPrompt (extractTag r1 tagExplanation)
            (extractTag r2 tagComponentMapping) instructions, false⟩] ∧
    (∀ res, (GenerateDiagram P g log fileTree readme instructions).1 = .ok res →
      res.Explanation = extractTag r1 tagExplanation ∧
      res.Mapping = extractTag r2 tagComponentMapping) ∧
    ((∀ explanation tree, explanation <:+: P.FormatSecondPrompt explanation tree) →
      ∀ req, (GenerateDiagram P g log fileTree readme instructions).2[log.length + 1]?
          = some req →
        extractTag r1 tagExplanation <:+: req.User) := by
  have hlog : (GenerateDiagram P g log fileTree readme instructions).2 =
      log ++
        [⟨g.model, P.SystemFirstPrompt, P.FormatFirstPrompt fileTree readme, false⟩,
         ⟨g.model, P.SystemSecondPrompt,
          P.FormatSecondPrompt (extractTag r1 tagExplanation) fileTree, false⟩,
         ⟨g.model, P.GetThirdSystemPrompt (!instructions.isEmpty),
          P.FormatThirdPrompt (extractTag r1 tagExplanation)
            (extractTag r2 tagComponentMapping) instructions, false⟩] := by
    simp only [GenerateDiagram, generateExplanation, generateMapping, generateDiagram, h1,
      h2]
    rcases h3 : g.client.CreateChatCompletion
        (log ++ [firstRequest P g fileTree readme false]
          ++ [secondRequest P g (extractTag r1 tagExplanation) fileTree false])
        (thirdRequest P g (extractTag r1 tagExplanation)
          (extractTag r2 tagComponentMapping) instructions false) with err | choices
    · simp [firstRequest, secondRequest, thirdRequest]
    · cases choices with
      | nil => simp [firstRequest, secondRequest, thirdRequest]
      | cons r3 rest3 =>
        simp only []
        split_ifs <;> simp [firstRequest, secondRequest, thirdRequest]
  refine ⟨hlog, ?_, ?_⟩
  · intro res hres
    simp only [GenerateDiagram, generateExplanation, generateMapping, generateDiagram, h1,
      h2] at hres
    rcases h3 : g.client.CreateChatCompletion
        (log ++ [firstRequest P g fileTree readme false]
          ++ [secondRequest P g (extractTag r1 tagExplanation) fileTree false])
        (thirdRequest P g (extractTag r1 tagExplanation)
          (extractTag r2 tagComponentMapping) instructions false) with err | choices
    · rw [h3] at hres
      simp at hres
    · rw [h3] at hres
      cases choices with
      | nil => simp at hres
      | cons r3 rest3 =>
        simp only [] at hres
        split_ifs at hres
        simp only [Outcome.ok.injEq] at hres
        subst hres
        exact ⟨rfl, rfl⟩
  · intro hembed req hreq
    rw [hlog] at hreq
    rw [List.getElem?_append_right (by omega)] at hreq
    simp only [Nat.add_sub_cancel_left, List.getElem?_cons_succ, List.getElem?_cons_zero,
      Option.some.injEq] at hreq
    subst hreq
    exact hembed _ _

/-- Witness of C7 on the sample service: the prompt of phase 2 contains the trimmed
interior of the explanation tags of the first reply. -/
theorem GenerateDiagram_threads_extracted_witness :
    extractTag (sampleText [] 0) tagExplanation <:+:
      (secondRequest samplePrompts (sampleGenerator "graph TD".toList) "a CLI".toList
        scenarioListing false).User :=
  (GenerateDiagram_threads_extracted samplePrompts (sampleGenerator "graph TD".toList) []
      scenarioListing scenarioReadme [] (sampleText [] 0) (sampleText [] 1) [] []
      rfl rfl).2.2
    (fun explanation tree => ⟨[], newline ++ tree, by simp [samplePrompts]⟩)
    (secondRequest samplePrompts (sampleGenerator "graph TD".toList) "a CLI".toList
        scenarioListing false)
    (by decide)

/-- C8, the code at the failing input: the first call fails with `connection refused`;
the streaming pipeline returns that error as it is, with no phase number, where the
blocking pipeline returns it wrapped as the failure of phase 1.  Both issue one request
and return no `Result`. -/
theorem GenerateDiagramStreaming_error_untagged :
    GenerateDiagramStreaming samplePrompts refusedGenerator [] scenarioListing
        scenarioReadme []
      = (.error (.api "connection refused".toList),
          [firstRequest samplePrompts refusedGenerator scenarioListing scenarioReadme
            true]) ∧
    GenerateDiagram samplePrompts refusedGenerator [] scenarioListing scenarioReadme []
      = (.error (.phaseFailed 1 (.api "connection refused".toList)),
          [firstRequest samplePrompts refusedGenerator scenarioListing scenarioReadme
            false]) := by
  decide

/-- C9, the code at the failing input: the service streams, for every request, chunks
that concatenate to the text of its blocking reply; its third reply is the marker
`BAD_INSTRUCTIONS`.  The blocking pipeline fails with the invalid-instructions error;
the streaming pipeline succeeds and returns the marker as the diagram. -/
theorem GenerateDiagramStreaming_returns_marker :
    (∀ (log : List Request) (req req1 : Request), ∃ content events,
      (sampleClient badInstructions).CreateChatCompletion log req = .ok [content] ∧
      (sampleClient badInstructions).CreateChatCompletionStream log req1 = .ok events ∧
      streamedText events = content) ∧
    (GenerateDiagram samplePrompts (sampleGenerator badInstructions) [] scenarioListing
        scenarioReadme []).1
      = .error (.phaseFailed 3 .invalidInstructions) ∧
    (GenerateDiagramStreaming samplePrompts (sampleGenerator badInstructions) []
        scenarioListing scenarioReadme []).1
      = .ok ⟨"BAD_INSTRUCTIONS".toList, "a CLI".toList, "cmd: src/cmd".toList⟩ := by
  refine ⟨?_, by decide, by decide⟩
  intro log req req1
  exact ⟨_, _, rfl, rfl, by simp [streamedText]⟩

/-- C10, the code at the failing input: the service answers without transport error and
with an empty list of choices; each of the four methods ends in the index-out-of-range
panic of `Choices[0]`, with neither a string nor an error. -/
theorem first_choice_panics_on_empty_choices :
    (generateExplanation samplePrompts emptyChoicesGenerator [] scenarioListing
        scenarioReadme).1 = .panic ∧
    (generateMapping samplePrompts emptyChoicesGenerator [] "a CLI".toList
        scenarioListing).1 = .panic ∧
    (generateDiagram samplePrompts emptyChoicesGenerator [] "a CLI".toList
        "cmd: src/cmd".toList []).1 = .panic ∧
    (streamPhase emptyChoicesGenerator []
        (firstRequest samplePrompts emptyChoicesGenerator scenarioListing scenarioReadme
          true)).1 = .panic := by
  decide

/-! ## Pruned directories -/

theorem splitSlash_append_sep (t : Str) :
    ∀ s : Str, '/' ∉ s → splitSlash (s ++ '/' :: t) = s :: splitSlash t
  | [], _ => by simp [splitSlash]
  | c :: s, h => by
    have hc : c ≠ '/' := fun e => h (by simp [e])
    have hs : '/' ∉ s := fun e => h (List.mem_cons_of_mem _ e)
    simp [splitSlash, hc, splitSlash_append_sep t s hs]

theorem splitSlash_of_no_sep : ∀ s : Str, '/' ∉ s → splitSlash s = [s]
  | [], _ => rfl
  | c :: s, h => by
    have hc : c ≠ '/' := fun e => h (by simp [e])
    have hs : '/' ∉ s := fun e => h (List.mem_cons_of_mem _ e)
    simp [splitSlash, hc, splitSlash_of_no_sep s hs]

theorem splitSlash_Join :
    ∀ L : List Str, L ≠ [] → (∀ s ∈ L, '/' ∉ s) → splitSlash (Join L sep) = L
  | [], h, _ => absurd rfl h
  | [a], _, hL => by
    simp only [Join]
    exact splitSlash_of_no_sep a (hL a (by simp))
  | a :: b :: rest, _, hL => by
    have ih := splitSlash_Join (b :: rest) (by simp) (fun s hs => hL s (by simp [hs]))
    have e : Join (a :: b :: rest) sep = a ++ '/' :: Join (b :: rest) sep := by
      simp [Join, sep]
    rw [e, splitSlash_append_sep _ a (hL a (by simp)), ih]

theorem splitSlash_Join_sep (t : Str) :
    ∀ L : List Str, L ≠ [] → (∀ s ∈ L, '/' ∉ s) →
      splitSlash (Join L sep ++ '/' :: t) = L ++ splitSlash t
  | [], h, _ => absurd rfl h
  | [a], _, hL => by
    simp only [Join]
    rw [splitSlash_append_sep t a (hL a (by simp))]
    rfl
  | a :: b :: rest, _, hL => by
    have ih := splitSlash_Join_sep t (b :: rest) (by simp) (fun s hs => hL s (by simp [hs]))
    have e : Join (a :: b :: rest) sep ++ '/' :: t
        = a ++ '/' :: (Join (b :: rest) sep ++ '/' :: t) := by
      simp [Join, sep]
    rw [e, splitSlash_append_sep _ a (hL a (by simp)), ih]
    rfl

theorem dirSegments_file (segs : List Str) (name : Str)
    (h : ∀ s ∈ segs ++ [name], '/' ∉ s) : dirSegments (relPathOf segs name) = segs := by
  unfold dirSegments relPathOf
  rw [splitSlash_Join _ (by simp) h]
  simp

theorem dirSegments_dir (segs : List Str) (name : Str)
    (h : ∀ s ∈ segs ++ [name], '/' ∉ s) :
    dirSegments (relPathOf segs name ++ sep) = segs ++ [name] := by
  unfold dirSegments relPathOf
  have e : Join (segs ++ [name]) sep ++ sep = Join (segs ++ [name]) sep ++ '/' :: [] := rfl
  rw [e, splitSlash_Join_sep _ _ (by simp) h]
  simp [splitSlash]

theorem validName_no_sep {name : Str} (h : validName name = true) : '/' ∉ name :=
  ((validName_iff name).mp h).2

mutual
theorem walkEntry_dirSegments (gi : Option GitIgnore) :
    ∀ (segs : List Str) (e : Entry),
      (∀ s ∈ segs, '/' ∉ s ∧ defaultExcludeDirs.contains s = false) →
      (∀ n ∈ e.names, validName n = true) →
      ∀ p ∈ walkEntry gi segs e [], ∀ s ∈ dirSegments p,
        defaultExcludeDirs.contains s = false
  | segs, .file name, hsegs, hv, p, hp, s, hs => by
    rw [walkEntry_file] at hp
    rw [hp.1, dirSegments_file] at hs
    · exact (hsegs s hs).2
    · intro x hx
      rcases List.mem_append.mp hx with hx | hx
      · exact (hsegs x hx).1
      · rw [List.mem_singleton.mp hx]
        exact validName_no_sep (hv name (by simp [Entry.names]))
  | segs, .dir name children, hsegs, hv, p, hp, s, hs => by
    have hname : '/' ∉ name := validName_no_sep (hv name (by simp [Entry.names]))
    rw [walkEntry_dir] at hp
    cases hex : defaultExcludeDirs.contains name with
    | true =>
      rw [hex] at hp
      simp only [if_true] at hp
      cases hp
    | false =>
      have hsegs1 : ∀ x ∈ segs ++ [name],
          '/' ∉ x ∧ defaultExcludeDirs.contains x = false := by
        intro x hx
        rcases List.mem_append.mp hx with hx | hx
        · exact hsegs x hx
        · rw [List.mem_singleton.mp hx]
          exact ⟨hname, hex⟩
      rw [hex] at hp
      simp only [Bool.false_eq_true, if_false] at hp
      split at hp
      · cases hp
      · rcases List.mem_cons.mp hp with rfl | hp
        · rw [dirSegments_dir segs name (fun x hx => (hsegs1 x hx).1)] at hs
          exact (hsegs1 s hs).2
        · exact walkEntries_dirSegments gi (segs ++ [name]) children hsegs1
            (fun n hn => hv n (by simp [Entry.names, hn])) p hp s hs
theorem walkEntries_dirSegments (gi : Option GitIgnore) :
    ∀ (segs : List Str) (es : List Entry),
      (∀ s ∈ segs, '/' ∉ s ∧ defaultExcludeDirs.contains s = false) →
      (∀ n ∈ namesOfEntries es, validName n = true) →
      ∀ p ∈ walkEntries gi segs es [], ∀ s ∈ dirSegments p,
        defaultExcludeDirs.contains s = false
  | segs, [], _, _, p, hp, _, _ => by simp [walkEntries] at hp
  | segs, e :: es, hsegs, hv, p, hp, s, hs => by
    rw [walkEntries_cons] at hp
    rcases List.mem_append.mp hp with hp | hp
    · exact walkEntry_dirSegments gi segs e hsegs
        (fun n hn => hv n (by simp [namesOfEntries, hn])) p hp s hs
    · exact walkEntries_dirSegments gi segs es hsegs
        (fun n hn => hv n (by simp [namesOfEntries, hn])) p hp s hs
end

/-- C3, amended: in the listing of a well-formed tree no path has a directory segment
(a segment followed by a separator) whose name is in `defaultExcludeDirs`.  Hence for a
name of that table the listing contains neither a directory path `segs/name/` nor the
path of anything below it, `segs/name/rest/last` or `segs/name/rest/last/`, whatever
rules the descendant itself matches. -/
theorem excluded_dirs_pruned (gi : Option GitIgnore) (root : List Entry)
    (hwf : WellFormed root) :
    (∀ p ∈ sortStrings (walkEntries gi [] root []), ∀ s ∈ dirSegments p,
      defaultExcludeDirs.contains s = false) ∧
    (∀ (segs rest : List Str) (name last : Str),
      defaultExcludeDirs.contains name = true →
      (∀ s ∈ segs ++ rest ++ [last], '/' ∉ s) →
      relPathOf segs name ++ sep ∉ sortStrings (walkEntries gi [] root []) ∧
      relPathOf (segs ++ name :: rest) last ∉ sortStrings (walkEntries gi [] root []) ∧
      relPathOf (segs ++ name :: rest) last ++ sep
        ∉ sortStrings (walkEntries gi [] root [])) := by
  have hmain : ∀ p ∈ sortStrings (walkEntries gi [] root []), ∀ s ∈ dirSegments p,
      defaultExcludeDirs.contains s = false := by
    intro p hp s hs
    unfold sortStrings at hp
    rw [List.mem_insertionSort] at hp
    exact walkEntries_dirSegments gi [] root (by simp) hwf p hp s hs
  refine ⟨hmain, ?_⟩
  intro segs rest name last hex hns
  have htable : ∀ n ∈ defaultExcludeDirs, '/' ∉ n := by decide
  have hname : '/' ∉ name := htable name (by simpa using hex)
  have h1 : ∀ s ∈ segs ++ [name], '/' ∉ s := by
    intro s hs
    rcases List.mem_append.mp hs with hs | hs
    · exact hns s (by simp [hs])
    · rw [List.mem_singleton.mp hs]; exact hname
  have h2 : ∀ s ∈ (segs ++ name :: rest) ++ [last], '/' ∉ s := by
    intro s hs
    rcases List.mem_append.mp hs with hs | hs
    · rcases List.mem_append.mp hs with hs | hs
      · exact hns s (by simp [hs])
      · rcases List.mem_cons.mp hs with rfl | hs
        · exact hname
        · exact hns s (by simp [hs])
    · exact hns s (by simp [List.mem_singleton.mp hs])
  refine ⟨fun hp => ?_, fun hp => ?_, fun hp => ?_⟩
  · have := hmain _ hp name (by rw [dirSegments_dir segs name h1]; simp)
    rw [hex] at this
    cases this
  · have := hmain _ hp name (by rw [dirSegments_file _ last h2]; simp)
    rw [hex] at this
    cases this
  · have := hmain _ hp name (by rw [dirSegments_dir _ last h2]; simp)
    rw [hex] at this
    cases this

/-- Witness of C3 (amended): the listing of the scenario tree has no line
`node_modules/` and no line `node_modules/pkg/index.js` or `node_modules/pkg/index.js/`. -/
theorem excluded_dirs_pruned_witness :
    relPathOf [] "node_modules".toList ++ sep
      ∉ sortStrings (walkEntries none [] scenarioTree []) ∧
    relPathOf ([] ++ "node_modules".toList :: ["pkg".toList]) "index.js".toList
      ∉ sortStrings (walkEntries none [] scenarioTree []) ∧
    relPathOf ([] ++ "node_modules".toList :: ["pkg".toList]) "index.js".toList ++ sep
      ∉ sortStrings (walkEntries none [] scenarioTree []) :=
  (excluded_dirs_pruned none scenarioTree (by unfold WellFormed; decide)).2
    [] ["pkg".toList] "node_modules".toList "index.js".toList (by decide) (by decide)
